import Mathlib

/-!
Shallow embedding of the QMDP layer family from `src/agents/qmdp_layers.py`:
the truncated Poisson kernel, the low-rank transition model, soft value
iteration, planning, belief/action updates, and the sequence drivers of the
three layer classes (`QMDPLayer`, `QMDPLayer2`, `HyperQMDPLayer`), together
with theorems about them.

Tensors are embedded as functions on `Fin`-indexed axes with values in `ℝ`
(batch `B`, action `A`, state `S`, rank `R`, horizon `H`, context `Z`).
Time-major batched sequences are embedded as lists of per-step tensors.
Failures of the original forward passes (`torch.stack` applied to an empty
list, a `None` action prior reaching `update_action` inside the loop) are
embedded by returning `none`.
-/

open Finset

/-- Batched belief / observation log-likelihood tensor, size `[B, S]`. -/
abbrev BeliefT (B S : ℕ) := Fin B → Fin S → ℝ

/-- Batched action distribution / control log-likelihood tensor, size `[B, A]`. -/
abbrev ActT (B A : ℕ) := Fin B → Fin A → ℝ

/-- Batched transition tensor, size `[B, A, S, S]`. -/
abbrev TransT (B A S : ℕ) := Fin B → Fin A → Fin S → Fin S → ℝ

/-- Batched reward / Q-slice tensor, size `[B, A, S]`. -/
abbrev RewT (B A S : ℕ) := Fin B → Fin A → Fin S → ℝ

/-- Softmax along one `Fin`-indexed axis: `torch.softmax(x, dim=-1)` on a single row. -/
noncomputable def softmaxFin {n : ℕ} (x : Fin n → ℝ) : Fin n → ℝ :=
  fun i => Real.exp (x i) / ∑ j, Real.exp (x j)

/-- `torch.xlogy x y`: `0` when `x = 0`, otherwise `x * log y`. -/
noncomputable def xlogy (x y : ℝ) : ℝ := if x = 0 then 0 else x * Real.log y

/-- Truncated Poisson log-probabilities over bins `1..K`:
`Ks.xlogy rate - rate - (Ks + 1).lgamma()` at `Ks = k + 1` (0-based index `k`). -/
noncomputable def poisson_logp (rate : ℝ) (K : ℕ) : Fin K → ℝ :=
  fun k => xlogy ((k.val : ℝ) + 1) rate - rate - Real.log (Real.Gamma ((k.val : ℝ) + 2))

/-- `poisson_pdf` of `qmdp_layers.py`: softmax over the truncated Poisson
log-probabilities. -/
noncomputable def poisson_pdf (rate : ℝ) (K : ℕ) : Fin K → ℝ :=
  softmaxFin (poisson_logp rate K)

/-- Learned low-rank parameters of `QMDPLayer` and `QMDPLayer2`
(the singleton batch dimension of the stored tensors is dropped). -/
structure QMDPParams (S A R : ℕ) where
  b0 : Fin S → ℝ
  a0 : Fin A → ℝ
  u : Fin R → Fin S → ℝ
  v : Fin R → Fin S → ℝ
  w : Fin R → Fin A → ℝ
  tau : ℝ

/-- One backward-induction step of `compute_value`:
`q[t+1] = reward + einsum("nkij, nkj -> nki", transition, logsumexp(q[t], dim=-2))`. -/
noncomputable def qIter {B A S : ℕ} (transition : TransT B A S) (reward : RewT B A S) :
    ℕ → RewT B A S
  | 0 => reward
  | t + 1 => fun n k i =>
      reward n k i +
        ∑ j, transition n k i j * Real.log (∑ a, Real.exp (qIter transition reward t n a j))

/-- `compute_value` (the method body is identical in all three layer classes):
the stacked Q tensor over the horizon, size `[H, B, A, S]`. -/
noncomputable def compute_value {B A S : ℕ} (H : ℕ) (transition : TransT B A S)
    (reward : RewT B A S) : Fin H → RewT B A S :=
  fun t => qIter transition reward t.val

/-- `update_belief` (the method body is identical in all three layer classes):
`softmax(log(einsum("nkij, ni, nk -> nj", transition, b, a) + eps) + logp_o)`. -/
noncomputable def update_belief {B A S : ℕ} (logp_o : BeliefT B S) (a : ActT B A)
    (b : BeliefT B S) (transition : TransT B A S) : BeliefT B S :=
  fun n => softmaxFin (fun j =>
    Real.log ((∑ k, ∑ i, transition n k i j * b n i * a n k) + 1e-6) + logp_o n j)

/-- The temporal kernel built inside `plan`: the learned rate logit is clipped to
`[log 1e-6, log 1e3]`, exponentiated, and pushed through `poisson_pdf`. -/
noncomputable def tauKernel (H : ℕ) (tau : ℝ) : Fin H → ℝ :=
  poisson_pdf (Real.exp (min (max tau (Real.log 1e-6)) (Real.log 1e3))) H

/-- `plan` of `QMDPLayer` / `QMDPLayer2`: the Poisson-weighted mixture of the
per-horizon softmax policies
`einsum("hnk, nh -> nk", softmax(einsum("ni, hnki -> hnk", b, value)), tau)`. -/
noncomputable def planQ {B A S : ℕ} (H : ℕ) (tau : ℝ) (b : BeliefT B S)
    (value : Fin H → RewT B A S) : ActT B A :=
  fun n k => ∑ h, softmaxFin (fun a => ∑ i, b n i * value h n a i) k * tauKernel H tau h

/-- Forward-pass value semantics of `Tensor.data`: gradient detachment does not
change the carried value. -/
def dataView {α : Type} (x : α) : α := x

namespace QMDPLayer

/-- `QMDPLayer.transition`: trilinear contraction
`einsum("nri, nrj, nrk -> nkij", u, v, w)` of the factors followed by softmax
over the destination-state axis. -/
noncomputable def transition {S A R : ℕ} (p : QMDPParams S A R) :
    Fin A → Fin S → Fin S → ℝ :=
  fun k i => softmaxFin (fun j => ∑ r, p.u r i * p.v r j * p.w r k)

/-- `QMDPLayer.update_action`: `softmax(a0 + logp_u)` using the global learned
action-prior logits. -/
noncomputable def update_action {B S A R : ℕ} (p : QMDPParams S A R)
    (logp_u : ActT B A) : ActT B A :=
  fun n => softmaxFin (fun k => p.a0 k + logp_u n k)

/-- The unrolled belief recursion of `QMDPLayer.forward`: each step is
`update_cell`, which just calls `update_belief`. -/
noncomputable def cellSeqA {B A S : ℕ} (transition : TransT B A S) :
    BeliefT B S → List (BeliefT B S × ActT B A) → List (BeliefT B S)
  | _, [] => []
  | b, oa :: rest =>
    let b2 := update_belief oa.1 oa.2 b transition
    b2 :: cellSeqA transition b2 rest

/-- `QMDPLayer.forward`.  With `b = none` the belief is bootstrapped from
`softmax(b0)` and the control log-likelihood sequence is left-padded with one
zero tensor.  `none` is returned where `torch.stack` would raise on an empty
list (`T = 0`). -/
noncomputable def forward {S A R : ℕ} (B H : ℕ) (p : QMDPParams S A R) (detach : Bool)
    (logp_o : List (BeliefT B S)) (logp_u : List (ActT B A)) (reward : RewT B A S)
    (b : Option (BeliefT B S)) : Option (List (BeliefT B S) × List (ActT B A)) :=
  let transitionB : TransT B A S := fun _ => transition p
  let value := compute_value H transitionB reward
  let seed : BeliefT B S × List (ActT B A) :=
    match b with
    | none => (fun _ => softmaxFin p.b0, (fun _ _ => 0) :: logp_u)
    | some bb => (bb, logp_u)
  let alpha_a := seed.2.map (update_action p)
  if logp_o.isEmpty then none
  else
    let alpha_b := cellSeqA transitionB seed.1 (logp_o.zip alpha_a)
    some (alpha_b, alpha_b.map (fun bb =>
      planQ H p.tau (if detach then dataView bb else bb) value))

end QMDPLayer

namespace QMDPLayer2

/-- `QMDPLayer2.update_action`: `softmax(log(pi + eps) + logp_u)`, the posterior
obtained from the planned action prior and the control log-likelihood. -/
noncomputable def update_action {B A : ℕ} (logp_u : ActT B A) (pr : ActT B A) : ActT B A :=
  fun n => softmaxFin (fun k => Real.log (pr n k + 1e-6) + logp_u n k)

/-- One `update_cell` step of `QMDPLayer2.forward`, paired with the plan for the
next step: given carried state `(b, pi)` and input `(logp_o, logp_u)` it emits
`(a_post, b_post, pi_next)`. -/
noncomputable def cellStep {B A S : ℕ} (H : ℕ) (tau : ℝ) (transition : TransT B A S)
    (value : Fin H → RewT B A S) (s : BeliefT B S × ActT B A)
    (ou : BeliefT B S × ActT B A) : ActT B A × BeliefT B S × ActT B A :=
  let a := update_action ou.2 s.2
  let b2 := update_belief ou.1 a s.1 transition
  (a, b2, planQ H tau b2 value)

/-- The unrolled recursion of `QMDPLayer2.forward`: the carried state of each
step is the `(belief, prior)` component of the previous step's output. -/
noncomputable def cellSeq {B A S : ℕ} (H : ℕ) (tau : ℝ) (transition : TransT B A S)
    (value : Fin H → RewT B A S) :
    BeliefT B S × ActT B A → List (BeliefT B S × ActT B A) →
      List (ActT B A × BeliefT B S × ActT B A)
  | _, [] => []
  | s, ou :: rest =>
    let y := cellStep H tau transition value s ou
    y :: cellSeq H tau transition value y.2 rest

/-- `QMDPLayer2.forward`.  With `b = none` both the belief and the prior are
bootstrapped (`softmax(b0)`, `softmax(a0)`) and the control sequence is
left-padded with one zero tensor, ignoring any supplied prior.  With `b`
supplied but the prior `none`, the `None` prior reaches `update_action` inside
the first loop iteration (or `torch.stack` raises when `T = 0`), embedded as
`none`. -/
noncomputable def forward {S A R : ℕ} (B H : ℕ) (p : QMDPParams S A R)
    (logp_o : List (BeliefT B S)) (logp_u : List (ActT B A)) (reward : RewT B A S)
    (b : Option (BeliefT B S)) (pr : Option (ActT B A)) :
    Option (List (ActT B A) × List (BeliefT B S) × List (ActT B A)) :=
  let transitionB : TransT B A S := fun _ => QMDPLayer.transition p
  let value := compute_value H transitionB reward
  match b, pr with
  | none, _ =>
    if logp_o.isEmpty then none
    else
      let out := cellSeq H p.tau transitionB value
        (fun _ => softmaxFin p.b0, fun _ => softmaxFin p.a0)
        (logp_o.zip ((fun _ _ => 0) :: logp_u))
      some (out.map (fun y => y.1), out.map (fun y => y.2.1), out.map (fun y => y.2.2))
  | some bb, some pp =>
    if logp_o.isEmpty then none
    else
      let out := cellSeq H p.tau transitionB value (bb, pp) (logp_o.zip logp_u)
      some (out.map (fun y => y.1), out.map (fun y => y.2.1), out.map (fun y => y.2.2))
  | some _, none => none

end QMDPLayer2

/-- Weights and biases of the `nn.Linear` hypernetwork heads of
`HyperQMDPLayer` (`_b0`, `_u`, `_v`, `_w`, `_tau`), with the `rank * dim`
outputs already viewed as `[rank, dim]`. -/
structure HyperQMDPParams (S A R Z : ℕ) where
  b0w : Fin S → Fin Z → ℝ
  b0b : Fin S → ℝ
  uw : Fin R → Fin S → Fin Z → ℝ
  ub : Fin R → Fin S → ℝ
  vw : Fin R → Fin S → Fin Z → ℝ
  vb : Fin R → Fin S → ℝ
  ww : Fin R → Fin A → Fin Z → ℝ
  wb : Fin R → Fin A → ℝ
  tauw : Fin Z → ℝ
  taub : ℝ

namespace HyperQMDPLayer

/-- `HyperQMDPLayer.compute_transition`: the factors are affine images of the
context vector `z`; then the same trilinear contraction and softmax as in
`QMDPLayer.transition`, per batch element. -/
noncomputable def compute_transition {B S A R Z : ℕ} (hp : HyperQMDPParams S A R Z)
    (z : Fin B → Fin Z → ℝ) : TransT B A S :=
  fun n k i => softmaxFin (fun j =>
    ∑ r, ((∑ m, hp.uw r i m * z n m) + hp.ub r i)
        * ((∑ m, hp.vw r j m * z n m) + hp.vb r j)
        * ((∑ m, hp.ww r k m * z n m) + hp.wb r k))

/-- `HyperQMDPLayer.plan`: as `planQ`, but the Poisson rate is the clipped,
exponentiated affine image `_tau(z)` of the context vector, per batch element. -/
noncomputable def plan {B S A R Z : ℕ} (H : ℕ) (hp : HyperQMDPParams S A R Z)
    (z : Fin B → Fin Z → ℝ) (b : BeliefT B S) (value : Fin H → RewT B A S) : ActT B A :=
  fun n k => ∑ h,
    softmaxFin (fun a => ∑ i, b n i * value h n a i) k *
      poisson_pdf (Real.exp (min (max ((∑ m, hp.tauw m * z n m) + hp.taub)
        (Real.log 1e-6)) (Real.log 1e3))) H h

/-- `HyperQMDPLayer.update_action`: `softmax(log(a + eps) + logp_u)`. -/
noncomputable def update_action {B A : ℕ} (logp_u : ActT B A) (a : ActT B A) : ActT B A :=
  fun n => softmaxFin (fun k => Real.log (a n k + 1e-6) + logp_u n k)

/-- `HyperQMDPLayer.init_hidden`: fold the first observation log-likelihood into
the hypernetwork prior belief `softmax(_b0(z))`, then plan from the result. -/
noncomputable def init_hidden {B S A R Z : ℕ} (H : ℕ) (hp : HyperQMDPParams S A R Z)
    (z : Fin B → Fin Z → ℝ) (logp_o : BeliefT B S) (value : Fin H → RewT B A S) :
    BeliefT B S × ActT B A :=
  let b := fun n => softmaxFin (fun j =>
    Real.log (softmaxFin (fun i => (∑ m, hp.b0w i m * z n m) + hp.b0b i) j + 1e-6)
      + logp_o n j)
  (b, plan H hp z b value)

/-- One `update_cell` step of `HyperQMDPLayer.forward`: action posterior, belief
posterior, then the plan for the next step.  The emitted pair is also the
carried state. -/
noncomputable def cellStep {B S A R Z : ℕ} (H : ℕ) (hp : HyperQMDPParams S A R Z)
    (z : Fin B → Fin Z → ℝ) (transition : TransT B A S) (value : Fin H → RewT B A S)
    (s : BeliefT B S × ActT B A) (ou : BeliefT B S × ActT B A) :
    BeliefT B S × ActT B A :=
  let ap := update_action ou.2 s.2
  let b2 := update_belief ou.1 ap s.1 transition
  (b2, plan H hp z b2 value)

/-- The unrolled recursion of `HyperQMDPLayer.forward` after the initial step. -/
noncomputable def cellSeq {B S A R Z : ℕ} (H : ℕ) (hp : HyperQMDPParams S A R Z)
    (z : Fin B → Fin Z → ℝ) (transition : TransT B A S) (value : Fin H → RewT B A S) :
    BeliefT B S × ActT B A → List (BeliefT B S × ActT B A) →
      List (BeliefT B S × ActT B A)
  | _, [] => []
  | s, ou :: rest =>
    let y := cellStep H hp z transition value s ou
    y :: cellSeq H hp z transition value y rest

/-- `HyperQMDPLayer.forward`.  With `b = none` the first step is `init_hidden`
on the first observation (no control log-likelihood consumed), and step `t ≥ 1`
consumes `logp_u[t-1]` (`t_offset = -1`).  With `b` supplied but `a = none`,
the `None` prior reaches `update_action` (or `torch.stack` raises on `T = 0`),
embedded as `none`. -/
noncomputable def forward {S A R Z : ℕ} (B H : ℕ) (hp : HyperQMDPParams S A R Z)
    (logp_o : List (BeliefT B S)) (logp_u : List (ActT B A)) (reward : RewT B A S)
    (z : Fin B → Fin Z → ℝ) (b : Option (BeliefT B S)) (a : Option (ActT B A)) :
    Option (List (BeliefT B S) × List (ActT B A)) :=
  let transitionB := compute_transition hp z
  let value := compute_value H transitionB reward
  match b, a with
  | none, _ =>
    match logp_o with
    | [] => none
    | o0 :: rest =>
      let s0 := init_hidden H hp z o0 value
      let out := cellSeq H hp z transitionB value s0 (rest.zip logp_u)
      some (s0.1 :: out.map (fun y => y.1), s0.2 :: out.map (fun y => y.2))
  | some bb, some aa =>
    if logp_o.isEmpty then none
    else
      let out := cellSeq H hp z transitionB value (bb, aa) (logp_o.zip logp_u)
      some (out.map (fun y => y.1), out.map (fun y => y.2))
  | some _, none => none

end HyperQMDPLayer

/-- First mode of a finite distribution: `m` attains the maximum and every
strictly earlier index has strictly smaller mass. -/
def isFirstMode {n : ℕ} (p : Fin n → ℝ) (m : Fin n) : Prop :=
  (∀ k, p k ≤ p m) ∧ ∀ k, k < m → p k < p m

/-- Zero vector on a singleton axis, used to instantiate theorems. -/
noncomputable def wVec : Fin 1 → ℝ := fun _ => 0

/-- Zero `[1, 1]` tensor, used to instantiate theorems. -/
noncomputable def wMat : Fin 1 → Fin 1 → ℝ := fun _ _ => 0

/-- Zero `[1, 1, 1]` tensor, used to instantiate theorems. -/
noncomputable def wRew : Fin 1 → Fin 1 → Fin 1 → ℝ := fun _ _ _ => 0

/-- Zero `[1, 1, 1, 1]` tensor, used to instantiate theorems. -/
noncomputable def wTrans : Fin 1 → Fin 1 → Fin 1 → Fin 1 → ℝ := fun _ _ _ _ => 0

/-- All-zero `QMDPLayer` parameters on singleton dimensions. -/
noncomputable def wParams : QMDPParams 1 1 1 := ⟨wVec, wVec, wMat, wMat, wMat, 0⟩

/-- All-zero `HyperQMDPLayer` parameters on singleton dimensions. -/
noncomputable def wHyper : HyperQMDPParams 1 1 1 1 :=
  ⟨wMat, wVec, wRew, wMat, wRew, wMat, wRew, wMat, wVec, 0⟩

/-- The unrolled `QMDPLayer2` recursion on the one-step zero inputs, used to
instantiate theorems about `QMDPLayer2.forward`. -/
noncomputable def wOut2 : List (ActT 1 1 × BeliefT 1 1 × ActT 1 1) :=
  QMDPLayer2.cellSeq 1 wParams.tau (fun _ => QMDPLayer.transition wParams)
    (compute_value 1 (fun _ => QMDPLayer.transition wParams) wRew) (wMat, wMat)
    ([wMat].zip [wMat])

/-- The unrolled `HyperQMDPLayer` recursion after the initial step on one-step
zero inputs (an empty tail), used to instantiate theorems about
`HyperQMDPLayer.forward`. -/
noncomputable def wOutH : List (BeliefT 1 1 × ActT 1 1) :=
  HyperQMDPLayer.cellSeq 1 wHyper wMat (HyperQMDPLayer.compute_transition wHyper wMat)
    (compute_value 1 (HyperQMDPLayer.compute_transition wHyper wMat) wRew)
    (HyperQMDPLayer.init_hidden 1 wHyper wMat wMat
      (compute_value 1 (HyperQMDPLayer.compute_transition wHyper wMat) wRew))
    ([wMat].zip [wMat])

lemma sum_exp_pos {n : ℕ} (hn : 0 < n) (x : Fin n → ℝ) : 0 < ∑ j, Real.exp (x j) := by
  haveI : Nonempty (Fin n) := Fin.pos_iff_nonempty.mp hn
  exact Finset.sum_pos (fun i _ => Real.exp_pos (x i)) Finset.univ_nonempty

lemma softmaxFin_nonneg {n : ℕ} (x : Fin n → ℝ) (i : Fin n) : 0 ≤ softmaxFin x i :=
  div_nonneg (le_of_lt (Real.exp_pos _)) (le_of_lt (sum_exp_pos i.pos x))

lemma softmaxFin_sum {n : ℕ} (hn : 0 < n) (x : Fin n → ℝ) : ∑ i, softmaxFin x i = 1 := by
  simp only [softmaxFin]
  rw [← Finset.sum_div]
  exact div_self (ne_of_gt (sum_exp_pos hn x))

lemma softmaxFin_le_iff {n : ℕ} (x : Fin n → ℝ) (i j : Fin n) :
    softmaxFin x i ≤ softmaxFin x j ↔ x i ≤ x j := by
  unfold softmaxFin
  rw [div_le_div_iff_of_pos_right (sum_exp_pos i.pos x)]
  exact Real.exp_le_exp

lemma softmaxFin_lt_iff {n : ℕ} (x : Fin n → ℝ) (i j : Fin n) :
    softmaxFin x i < softmaxFin x j ↔ x i < x j := by
  unfold softmaxFin
  rw [div_lt_div_iff_of_pos_right (sum_exp_pos i.pos x)]
  exact Real.exp_lt_exp

/-- Claim C1: `compute_value` produces a `[H, B, A, S]` Q tensor with base case
`Q[0] = reward` and recurrence `Q[t+1] = reward + einsum("nkij, nkj -> nki",
transition, logsumexp(Q[t], action axis))` for `t + 1 < H`. -/
theorem compute_value_spec {B A S : ℕ} (H t : ℕ) (hH : 1 ≤ H) (ht : t + 1 < H)
    (transition : TransT B A S) (reward : RewT B A S) :
    compute_value H transition reward ⟨0, hH⟩ = reward ∧
    compute_value H transition reward ⟨t + 1, ht⟩ = fun n k i =>
      reward n k i + ∑ j, transition n k i j *
        Real.log (∑ a, Real.exp
          (compute_value H transition reward ⟨t, Nat.lt_of_succ_lt ht⟩ n a j)) :=
  ⟨rfl, rfl⟩

/-- Witness for C1 at `H = 2`, `t = 0`, zero tensors. -/
theorem compute_value_spec_witness :
    compute_value 2 wTrans wRew ⟨0, by decide⟩ = wRew ∧
    compute_value 2 wTrans wRew ⟨0 + 1, by decide⟩ = fun n k i =>
      wRew n k i + ∑ j, wTrans n k i j *
        Real.log (∑ a, Real.exp
          (compute_value 2 wTrans wRew ⟨0, Nat.lt_of_succ_lt (by decide)⟩ n a j)) :=
  compute_value_spec 2 0 (by decide) (by decide) wTrans wRew

/-- Claim C2: the transition rows over the destination-state axis are entrywise
non-negative and sum to 1 for every `(action, source-state)` pair, and the
outputs of `update_belief`, `update_action` and `plan` are entrywise
non-negative and sum to 1 per batch element. -/
theorem distribution_invariants {B S A R : ℕ} (H : ℕ) (hS : 0 < S) (hA : 0 < A)
    (hH : 0 < H) (p : QMDPParams S A R) (transition : TransT B A S)
    (logp_o : BeliefT B S) (logp_u : ActT B A) (a : ActT B A) (b : BeliefT B S)
    (value : Fin H → RewT B A S) (n : Fin B) :
    (∀ k i, (∀ j, 0 ≤ QMDPLayer.transition p k i j) ∧
      ∑ j, QMDPLayer.transition p k i j = 1) ∧
    ((∀ j, 0 ≤ update_belief logp_o a b transition n j) ∧
      ∑ j, update_belief logp_o a b transition n j = 1) ∧
    ((∀ k, 0 ≤ QMDPLayer.update_action p logp_u n k) ∧
      ∑ k, QMDPLayer.update_action p logp_u n k = 1) ∧
    ((∀ k, 0 ≤ planQ H p.tau b value n k) ∧
      ∑ k, planQ H p.tau b value n k = 1) := by
  refine ⟨fun k i => ⟨fun j => softmaxFin_nonneg _ j, softmaxFin_sum hS _⟩,
    ⟨fun j => softmaxFin_nonneg _ j, softmaxFin_sum hS _⟩,
    ⟨fun k => softmaxFin_nonneg _ k, softmaxFin_sum hA _⟩, ?_, ?_⟩
  · intro k
    apply Finset.sum_nonneg
    intro h2 _
    exact mul_nonneg (softmaxFin_nonneg _ _) (softmaxFin_nonneg _ _)
  · simp only [planQ]
    rw [Finset.sum_comm]
    have h1 : ∀ h2 : Fin H,
        (∑ k, softmaxFin (fun a2 => ∑ i, b n i * value h2 n a2 i) k
            * tauKernel H p.tau h2)
          = tauKernel H p.tau h2 := by
      intro h2
      rw [← Finset.sum_mul, softmaxFin_sum hA, one_mul]
    rw [Finset.sum_congr rfl fun h2 _ => h1 h2]
    exact softmaxFin_sum hH _

/-- Witness for C2 on singleton dimensions with zero tensors. -/
theorem distribution_invariants_witness :
    (∀ k i, (∀ j, 0 ≤ QMDPLayer.transition wParams k i j) ∧
      ∑ j, QMDPLayer.transition wParams k i j = 1) ∧
    ((∀ j, 0 ≤ update_belief wMat wMat wMat wTrans 0 j) ∧
      ∑ j, update_belief wMat wMat wMat wTrans 0 j = 1) ∧
    ((∀ k, 0 ≤ QMDPLayer.update_action wParams wMat 0 k) ∧
      ∑ k, QMDPLayer.update_action wParams wMat 0 k = 1) ∧
    ((∀ k, 0 ≤ planQ 1 wParams.tau wMat (fun _ => wRew) 0 k) ∧
      ∑ k, planQ 1 wParams.tau wMat (fun _ => wRew) 0 k = 1) :=
  distribution_invariants 1 (by decide) (by decide) (by decide) wParams wTrans
    wMat wMat wMat wMat (fun _ => wRew) 0

/-- Claim C6: the `detach` flag of `QMDPLayer` changes only gradient flow; the
forward-pass outputs with `detach = true` and `detach = false` are identical. -/
theorem forward_detach_value_eq {S A R : ℕ} (B H : ℕ) (p : QMDPParams S A R)
    (logp_o : List (BeliefT B S)) (logp_u : List (ActT B A)) (reward : RewT B A S)
    (b : Option (BeliefT B S)) :
    QMDPLayer.forward B H p true logp_o logp_u reward b =
      QMDPLayer.forward B H p false logp_o logp_u reward b := rfl

/-- Claim C7: for any rate in the clipped range `[1e-6, 1e3]` and horizon
`H ≥ 1`, `poisson_pdf r H` is the softmax over bins `k = 1..H` of the truncated
Poisson log-probabilities `k * log r - r - log k!`, hence entrywise
non-negative with entries summing to 1. -/
theorem poisson_pdf_spec (H : ℕ) (r : ℝ) (hH : 0 < H) (hr1 : (1e-6 : ℝ) ≤ r)
    (hr2 : r ≤ (1e3 : ℝ)) :
    poisson_pdf r H = softmaxFin (fun k : Fin H =>
      ((k.val : ℝ) + 1) * Real.log r - r - Real.log ((Nat.factorial (k.val + 1) : ℝ))) ∧
    (∀ k, 0 ≤ poisson_pdf r H k) ∧ ∑ k, poisson_pdf r H k = 1 := by
  refine ⟨?_, fun k => softmaxFin_nonneg _ k, softmaxFin_sum hH _⟩
  have hlog : poisson_logp r H = fun k : Fin H =>
      ((k.val : ℝ) + 1) * Real.log r - r - Real.log ((Nat.factorial (k.val + 1) : ℝ)) := by
    funext k
    unfold poisson_logp xlogy
    rw [if_neg (by positivity)]
    have hg : Real.Gamma ((k.val : ℝ) + 2) = ((Nat.factorial (k.val + 1) : ℝ)) := by
      rw [show ((k.val : ℝ) + 2) = ((k.val + 1 : ℕ) : ℝ) + 1 by push_cast; ring]
      exact Real.Gamma_nat_eq_factorial (k.val + 1)
    rw [hg]
  unfold poisson_pdf
  rw [hlog]

/-- Witness for C7 at `H = 1`, `r = 1`. -/
theorem poisson_pdf_spec_witness :
    poisson_pdf 1 1 = softmaxFin (fun k : Fin 1 =>
      ((k.val : ℝ) + 1) * Real.log 1 - 1 - Real.log ((Nat.factorial (k.val + 1) : ℝ))) ∧
    (∀ k, 0 ≤ poisson_pdf 1 1 k) ∧ ∑ k, poisson_pdf 1 1 k = 1 :=
  poisson_pdf_spec 1 1 (by decide) (by norm_num) (by norm_num)

lemma cellSeqA_length {B A S : ℕ} (tr : TransT B A S)
    (l : List (BeliefT B S × ActT B A)) (b : BeliefT B S) :
    (QMDPLayer.cellSeqA tr b l).length = l.length := by
  induction l generalizing b with
  | nil => rfl
  | cons oa rest ih => simp [QMDPLayer.cellSeqA, ih]

lemma cellSeq2_length {B A S : ℕ} (H : ℕ) (tau : ℝ) (tr : TransT B A S)
    (value : Fin H → RewT B A S) (l : List (BeliefT B S × ActT B A))
    (s : BeliefT B S × ActT B A) :
    (QMDPLayer2.cellSeq H tau tr value s l).length = l.length := by
  induction l generalizing s with
  | nil => rfl
  | cons ou rest ih => simp [QMDPLayer2.cellSeq, ih]

lemma cellSeqH_length {B S A R Z : ℕ} (H : ℕ) (hp : HyperQMDPParams S A R Z)
    (z : Fin B → Fin Z → ℝ) (tr : TransT B A S) (value : Fin H → RewT B A S)
    (l : List (BeliefT B S × ActT B A)) (s : BeliefT B S × ActT B A) :
    (HyperQMDPLayer.cellSeq H hp z tr value s l).length = l.length := by
  induction l generalizing s with
  | nil => rfl
  | cons ou rest ih => simp [HyperQMDPLayer.cellSeq, ih]

/-- Claim C3: with `b = none` the sequence drivers bootstrap the belief from the
learned prior and left-pad the control log-likelihoods with one zero tensor:
the outputs equal those of an explicit call with `softmax(b0)` (and, for
`QMDPLayer2`, `pi = softmax(a0)`) and the padded control sequence, and the
emitted belief (and policy) sequences have length exactly `T`. -/
theorem forward_bootstrap {S A R : ℕ} (B H : ℕ) (p : QMDPParams S A R) (d : Bool)
    (logp_o : List (BeliefT B S)) (logp_u : List (ActT B A)) (reward : RewT B A S)
    (hlen : logp_o.length = logp_u.length + 1) :
    QMDPLayer.forward B H p d logp_o logp_u reward none =
      QMDPLayer.forward B H p d logp_o ((fun _ _ => 0) :: logp_u) reward
        (some (fun _ => softmaxFin p.b0)) ∧
    QMDPLayer2.forward B H p logp_o logp_u reward none none =
      QMDPLayer2.forward B H p logp_o ((fun _ _ => 0) :: logp_u) reward
        (some (fun _ => softmaxFin p.b0)) (some (fun _ => softmaxFin p.a0)) ∧
    (QMDPLayer.forward B H p d logp_o logp_u reward none).map
        (fun y => (y.1.length, y.2.length)) = some (logp_o.length, logp_o.length) ∧
    (QMDPLayer2.forward B H p logp_o logp_u reward none none).map
        (fun y => (y.1.length, y.2.1.length, y.2.2.length)) =
      some (logp_o.length, logp_o.length, logp_o.length) := by
  refine ⟨rfl, rfl, ?_, ?_⟩ <;>
  · cases logp_o with
    | nil => simp at hlen
    | cons o0 lo2 =>
      have hl2 : lo2.length = logp_u.length := by simpa using hlen
      simp [QMDPLayer.forward, QMDPLayer2.forward, cellSeqA_length, cellSeq2_length,
        List.length_zip, hl2]

/-- Witness for C3 at `T = 1` with zero tensors. -/
theorem forward_bootstrap_witness :
    QMDPLayer.forward 1 1 wParams true [wMat] [] wRew none =
      QMDPLayer.forward 1 1 wParams true [wMat] ((fun _ _ => 0) :: []) wRew
        (some (fun _ => softmaxFin wParams.b0)) ∧
    QMDPLayer2.forward 1 1 wParams [wMat] [] wRew none none =
      QMDPLayer2.forward 1 1 wParams [wMat] ((fun _ _ => 0) :: []) wRew
        (some (fun _ => softmaxFin wParams.b0)) (some (fun _ => softmaxFin wParams.a0)) ∧
    (QMDPLayer.forward 1 1 wParams true [wMat] [] wRew none).map
        (fun y => (y.1.length, y.2.length)) = some ([wMat].length, [wMat].length) ∧
    (QMDPLayer2.forward 1 1 wParams [wMat] [] wRew none none).map
        (fun y => (y.1.length, y.2.1.length, y.2.2.length)) =
      some ([wMat].length, [wMat].length, [wMat].length) :=
  forward_bootstrap 1 1 wParams true [wMat] [] wRew rfl

/-- Claim C5: in `QMDPLayer.forward` the action posterior is
`softmax(a0 + logp_u[t])`, independent of any belief or plan; the belief
recursion never consumes a plan output (the emitted beliefs are independent of
the reward, hence of the Q values), and each emitted plan is a read-only
function of the belief posterior it follows. -/
theorem forward_plan_readonly {S A R : ℕ} (B H : ℕ) (p : QMDPParams S A R) (d : Bool)
    (logp_o : List (BeliefT B S)) (logp_u : List (ActT B A))
    (reward reward2 : RewT B A S) (bb : BeliefT B S) (hne : logp_o ≠ []) :
    (∀ lu : ActT B A, ∀ n, QMDPLayer.update_action p lu n
        = softmaxFin (fun k => p.a0 k + lu n k)) ∧
    QMDPLayer.forward B H p d logp_o logp_u reward (some bb) =
      some (QMDPLayer.cellSeqA (fun _ => QMDPLayer.transition p) bb
              (logp_o.zip (logp_u.map (QMDPLayer.update_action p))),
            (QMDPLayer.cellSeqA (fun _ => QMDPLayer.transition p) bb
              (logp_o.zip (logp_u.map (QMDPLayer.update_action p)))).map
              (fun x => planQ H p.tau x
                (compute_value H (fun _ => QMDPLayer.transition p) reward))) ∧
    (QMDPLayer.forward B H p d logp_o logp_u reward2 (some bb)).map (fun y => y.1) =
      some (QMDPLayer.cellSeqA (fun _ => QMDPLayer.transition p) bb
        (logp_o.zip (logp_u.map (QMDPLayer.update_action p)))) := by
  refine ⟨fun lu n => rfl, ?_, ?_⟩
  · cases logp_o with
    | nil => exact absurd rfl hne
    | cons o0 lo2 => cases d <;> rfl
  · cases logp_o with
    | nil => exact absurd rfl hne
    | cons o0 lo2 => rfl

/-- Witness for C5 at `T = 1` with zero tensors. -/
theorem forward_plan_readonly_witness :
    (∀ lu : ActT 1 1, ∀ n, QMDPLayer.update_action wParams lu n
        = softmaxFin (fun k => wParams.a0 k + lu n k)) ∧
    QMDPLayer.forward 1 1 wParams true [wMat] [wMat] wRew (some wMat) =
      some (QMDPLayer.cellSeqA (fun _ => QMDPLayer.transition wParams) wMat
              ([wMat].zip ([wMat].map (QMDPLayer.update_action wParams))),
            (QMDPLayer.cellSeqA (fun _ => QMDPLayer.transition wParams) wMat
              ([wMat].zip ([wMat].map (QMDPLayer.update_action wParams)))).map
              (fun x => planQ 1 wParams.tau x
                (compute_value 1 (fun _ => QMDPLayer.transition wParams) wRew))) ∧
    (QMDPLayer.forward 1 1 wParams true [wMat] [wMat] wRew (some wMat)).map
        (fun y => y.1) =
      some (QMDPLayer.cellSeqA (fun _ => QMDPLayer.transition wParams) wMat
        ([wMat].zip ([wMat].map (QMDPLayer.update_action wParams)))) :=
  forward_plan_readonly 1 1 wParams true [wMat] [wMat] wRew wRew wMat (by simp)

/-- Claim C10: in `QMDPLayer2.forward` and `HyperQMDPLayer.forward`, supplying
the initial belief without the initial action prior makes the forward pass fail
(the `None` prior reaches `update_action`), while `b = none` ignores any
supplied prior, bootstraps both, and succeeds. -/
theorem forward_missing_prior {S A R Z : ℕ} (B H : ℕ) (p : QMDPParams S A R)
    (hp : HyperQMDPParams S A R Z) (logp_o : List (BeliefT B S))
    (logp_u : List (ActT B A)) (reward : RewT B A S) (z : Fin B → Fin Z → ℝ)
    (bb : BeliefT B S) (pr1 pr2 : Option (ActT B A)) (hne : logp_o ≠ []) :
    QMDPLayer2.forward B H p logp_o logp_u reward (some bb) none = none ∧
    HyperQMDPLayer.forward B H hp logp_o logp_u reward z (some bb) none = none ∧
    QMDPLayer2.forward B H p logp_o logp_u reward none pr1 =
      QMDPLayer2.forward B H p logp_o logp_u reward none pr2 ∧
    (QMDPLayer2.forward B H p logp_o logp_u reward none pr1).isSome = true ∧
    HyperQMDPLayer.forward B H hp logp_o logp_u reward z none pr1 =
      HyperQMDPLayer.forward B H hp logp_o logp_u reward z none pr2 ∧
    (HyperQMDPLayer.forward B H hp logp_o logp_u reward z none pr1).isSome = true := by
  refine ⟨rfl, rfl, rfl, ?_, rfl, ?_⟩
  · cases logp_o with
    | nil => exact absurd rfl hne
    | cons o0 lo2 => rfl
  · cases logp_o with
    | nil => exact absurd rfl hne
    | cons o0 lo2 => rfl

/-- Witness for C10 at `T = 1` with zero tensors, a supplied prior on one side
and a missing one on the other. -/
theorem forward_missing_prior_witness :
    QMDPLayer2.forward 1 1 wParams [wMat] [] wRew (some wMat) none = none ∧
    HyperQMDPLayer.forward 1 1 wHyper [wMat] [] wRew wMat (some wMat) none = none ∧
    QMDPLayer2.forward 1 1 wParams [wMat] [] wRew none (some wMat) =
      QMDPLayer2.forward 1 1 wParams [wMat] [] wRew none none ∧
    (QMDPLayer2.forward 1 1 wParams [wMat] [] wRew none (some wMat)).isSome = true ∧
    HyperQMDPLayer.forward 1 1 wHyper [wMat] [] wRew wMat none (some wMat) =
      HyperQMDPLayer.forward 1 1 wHyper [wMat] [] wRew wMat none none ∧
    (HyperQMDPLayer.forward 1 1 wHyper [wMat] [] wRew wMat none (some wMat)).isSome
      = true :=
  forward_missing_prior 1 1 wParams wHyper [wMat] [] wRew wMat wMat (some wMat) none
    (by simp)

lemma poisson_logp_eval (r : ℝ) (K : ℕ) (k : Fin K) :
    poisson_logp r K k = ((k.val : ℝ) + 1) * Real.log r - r
      - Real.log ((Nat.factorial (k.val + 1) : ℝ)) := by
  unfold poisson_logp xlogy
  rw [if_neg (by positivity)]
  have hg : Real.Gamma ((k.val : ℝ) + 2) = ((Nat.factorial (k.val + 1) : ℝ)) := by
    rw [show ((k.val : ℝ) + 2) = ((k.val + 1 : ℕ) : ℝ) + 1 by push_cast; ring]
    exact Real.Gamma_nat_eq_factorial (k.val + 1)
  rw [hg]

lemma poisson_pdf_le_first (K : ℕ) (hK : 0 < K) (r : ℝ) (hr0 : (1e-6 : ℝ) ≤ r)
    (hr1 : r ≤ 1) (k : Fin K) :
    poisson_pdf r K k ≤ poisson_pdf r K ⟨0, hK⟩ := by
  unfold poisson_pdf
  rw [softmaxFin_le_iff, poisson_logp_eval, poisson_logp_eval]
  have h0n : (⟨0, hK⟩ : Fin K).val = 0 := rfl
  rw [h0n]
  have hf1 : ((Nat.factorial (0 + 1) : ℕ) : ℝ) = 1 := by norm_num [Nat.factorial]
  rw [hf1, Real.log_one, Nat.cast_zero]
  have hlr : Real.log r ≤ 0 := Real.log_nonpos (by linarith) hr1
  have hk0 : (0 : ℝ) ≤ (k.val : ℝ) := Nat.cast_nonneg _
  have hfac : 0 ≤ Real.log ((Nat.factorial (k.val + 1) : ℝ)) := by
    apply Real.log_nonneg
    exact_mod_cast Nat.one_le_iff_ne_zero.mpr (Nat.factorial_ne_zero _)
  nlinarith [hk0, hlr, hfac]

/-- Claim C8: the truncated Poisson kernel has its maximal mass on bin 1 for
every rate in `[1e-6, 1]`, and the index of the kernel's first mode is weakly
increasing in the rate over the clipped range. -/
theorem poisson_mode_spec (K : ℕ) (hK : 0 < K) (r r1 r2 : ℝ)
    (hr0 : (1e-6 : ℝ) ≤ r) (hr1 : r ≤ 1)
    (h1a : (1e-6 : ℝ) ≤ r1) (h2a : r2 ≤ (1e3 : ℝ)) (h12 : r1 ≤ r2)
    (m1 m2 : Fin K)
    (hm1 : isFirstMode (poisson_pdf r1 K) m1)
    (hm2 : isFirstMode (poisson_pdf r2 K) m2) :
    (∀ k, poisson_pdf r K k ≤ poisson_pdf r K ⟨0, hK⟩) ∧ m1 ≤ m2 := by
  refine ⟨fun k => poisson_pdf_le_first K hK r hr0 hr1 k, ?_⟩
  by_contra hcon
  push_neg at hcon
  have e1 := hm1.2 m2 hcon
  have e2 := hm2.1 m1
  unfold poisson_pdf at e1 e2
  rw [softmaxFin_lt_iff, poisson_logp_eval, poisson_logp_eval] at e1
  rw [softmaxFin_le_iff, poisson_logp_eval, poisson_logp_eval] at e2
  have hr1p : (0 : ℝ) < r1 := by
    have : (0 : ℝ) < 1e-6 := by norm_num
    linarith
  have hL : Real.log r1 ≤ Real.log r2 := Real.log_le_log hr1p h12
  have hab : ((m2.val : ℝ)) < ((m1.val : ℝ)) := by exact_mod_cast hcon
  have hmul : ((m1.val : ℝ) - (m2.val : ℝ)) * Real.log r1
      ≤ ((m1.val : ℝ) - (m2.val : ℝ)) * Real.log r2 :=
    mul_le_mul_of_nonneg_left hL (by linarith)
  nlinarith [e1, e2, hmul]

/-- Witness for C8 at `K = 2`, all rates equal to 1, both first modes at bin 1. -/
theorem poisson_mode_spec_witness :
    (∀ k, poisson_pdf 1 2 k ≤ poisson_pdf 1 2 ⟨0, Nat.succ_pos 1⟩) ∧
      (⟨0, Nat.succ_pos 1⟩ : Fin 2) ≤ ⟨0, Nat.succ_pos 1⟩ := by
  have hm : isFirstMode (poisson_pdf 1 2) ⟨0, Nat.succ_pos 1⟩ :=
    ⟨fun k => poisson_pdf_le_first 2 (Nat.succ_pos 1) 1 (by norm_num) le_rfl k,
     fun k hk => absurd (Fin.lt_def.mp hk) (Nat.not_lt_zero _)⟩
  exact poisson_mode_spec 2 (Nat.succ_pos 1) 1 1 1 (by norm_num) le_rfl (by norm_num)
    (by norm_num) le_rfl ⟨0, Nat.succ_pos 1⟩ ⟨0, Nat.succ_pos 1⟩ hm hm

lemma getD_cons_zero_fn {α : Type} (a : α) (l : List α) (d : α) :
    (a :: l).getD 0 d = a := rfl

lemma getD_cons_succ_fn {α : Type} (a : α) (l : List α) (n : ℕ) (d : α) :
    (a :: l).getD (n + 1) d = l.getD n d := rfl

lemma getD_map_fn {α β : Type} (f : α → β) :
    ∀ (l : List α) (t : ℕ) (d : α) (e : β), f d = e →
      (l.map f).getD t e = f (l.getD t d)
  | [], _, _, _, h => h.symm
  | _ :: _, 0, _, _, _ => rfl
  | _ :: rest, t + 1, d, e, h => getD_map_fn f rest t d e h

lemma zip_getD {α β : Type} :
    ∀ (l1 : List α) (l2 : List β) (t : ℕ) (d1 : α) (d2 : β),
      t < l1.length → t < l2.length →
      (l1.zip l2).getD t (d1, d2) = (l1.getD t d1, l2.getD t d2)
  | [], _, _, _, _, h1, _ => absurd h1 (by simp)
  | _ :: _, [], _, _, _, _, h2 => absurd h2 (by simp)
  | _ :: _, _ :: _, 0, _, _, _, _ => rfl
  | _ :: r1, _ :: r2, t + 1, d1, d2, h1, h2 =>
      zip_getD r1 r2 t d1 d2 (Nat.lt_of_succ_lt_succ h1) (Nat.lt_of_succ_lt_succ h2)

lemma QMDPLayer2.cellSeq2_cons {B A S : ℕ} (H : ℕ) (tau : ℝ) (tr : TransT B A S)
    (value : Fin H → RewT B A S) (s : BeliefT B S × ActT B A)
    (ou : BeliefT B S × ActT B A) (rest : List (BeliefT B S × ActT B A)) :
    QMDPLayer2.cellSeq H tau tr value s (ou :: rest) =
      QMDPLayer2.cellStep H tau tr value s ou ::
        QMDPLayer2.cellSeq H tau tr value
          (QMDPLayer2.cellStep H tau tr value s ou).2 rest := rfl

lemma QMDPLayer2.cellSeq2_getD_succ {B A S : ℕ} (H : ℕ) (tau : ℝ) (tr : TransT B A S)
    (value : Fin H → RewT B A S) (d : ActT B A × BeliefT B S × ActT B A)
    (dp : BeliefT B S × ActT B A) (l : List (BeliefT B S × ActT B A)) :
    ∀ (s : BeliefT B S × ActT B A) (t : ℕ), t + 1 < l.length →
      (QMDPLayer2.cellSeq H tau tr value s l).getD (t + 1) d =
        QMDPLayer2.cellStep H tau tr value
          ((QMDPLayer2.cellSeq H tau tr value s l).getD t d).2 (l.getD (t + 1) dp) := by
  induction l with
  | nil => intro s t ht; exact absurd ht (by simp)
  | cons ou rest ih =>
    intro s t ht
    cases rest with
    | nil =>
      exact absurd ht (by simp)
    | cons ou2 rest2 =>
      cases t with
      | zero =>
        rw [QMDPLayer2.cellSeq2_cons]
        simp only [getD_cons_succ_fn, getD_cons_zero_fn]
        rw [QMDPLayer2.cellSeq2_cons]
        simp only [getD_cons_zero_fn]
      | succ t2 =>
        have ht2 : t2 + 1 < (ou2 :: rest2).length := Nat.lt_of_succ_lt_succ ht
        rw [QMDPLayer2.cellSeq2_cons]
        simp only [getD_cons_succ_fn]
        exact ih _ t2 ht2

/-- Claim C4: in `QMDPLayer2.forward`, the action posterior at step `t` equals
`softmax(log(pi_t + 1e-6) + logp_u[t])` where `pi_t` is the action prior
planned at the previous step (the supplied prior at `t = 0`); the belief
posterior at step `t` is computed from this action posterior; and the prior
emitted at step `t` is `plan` of the resulting belief, consumed at step
`t + 1`. -/
theorem layer2_step_structure {S A R : ℕ} (B H : ℕ) (p : QMDPParams S A R)
    (logp_o : List (BeliefT B S)) (logp_u : List (ActT B A)) (reward : RewT B A S)
    (bb : BeliefT B S) (pp : ActT B A) (alpha_a : List (ActT B A))
    (alpha_b : List (BeliefT B S)) (alpha_pi : List (ActT B A))
    (hlen : logp_u.length = logp_o.length) (hne : logp_o ≠ [])
    (hout : QMDPLayer2.forward B H p logp_o logp_u reward (some bb) (some pp) =
      some (alpha_a, alpha_b, alpha_pi)) :
    (alpha_a.getD 0 (fun _ _ => 0) =
        QMDPLayer2.update_action (logp_u.getD 0 (fun _ _ => 0)) pp ∧
      alpha_b.getD 0 (fun _ _ => 0) =
        update_belief (logp_o.getD 0 (fun _ _ => 0)) (alpha_a.getD 0 (fun _ _ => 0))
          bb (fun _ => QMDPLayer.transition p) ∧
      alpha_pi.getD 0 (fun _ _ => 0) =
        planQ H p.tau (alpha_b.getD 0 (fun _ _ => 0))
          (compute_value H (fun _ => QMDPLayer.transition p) reward)) ∧
    (∀ t, t + 1 < logp_o.length →
      alpha_a.getD (t + 1) (fun _ _ => 0) =
        QMDPLayer2.update_action (logp_u.getD (t + 1) (fun _ _ => 0))
          (alpha_pi.getD t (fun _ _ => 0)) ∧
      alpha_b.getD (t + 1) (fun _ _ => 0) =
        update_belief (logp_o.getD (t + 1) (fun _ _ => 0))
          (alpha_a.getD (t + 1) (fun _ _ => 0)) (alpha_b.getD t (fun _ _ => 0))
          (fun _ => QMDPLayer.transition p) ∧
      alpha_pi.getD (t + 1) (fun _ _ => 0) =
        planQ H p.tau (alpha_b.getD (t + 1) (fun _ _ => 0))
          (compute_value H (fun _ => QMDPLayer.transition p) reward)) := by
  cases logp_o with
  | nil => exact absurd rfl hne
  | cons o0 lo2 =>
    cases logp_u with
    | nil => exact absurd hlen (by simp)
    | cons u0 lu2 =>
      simp only [QMDPLayer2.forward, List.isEmpty_cons, Bool.false_eq_true, if_false,
        Option.some.injEq, Prod.mk.injEq] at hout
      obtain ⟨ha, hb, hpi⟩ := hout
      subst ha hb hpi
      refine ⟨⟨rfl, rfl, rfl⟩, ?_⟩
      intro t ht
      have hlt2 : t + 1 < (u0 :: lu2).length := by rw [hlen]; exact ht
      have hzl : t + 1 < ((o0 :: lo2).zip (u0 :: lu2)).length := by
        rw [List.length_zip]; exact lt_min ht hlt2
      set out := QMDPLayer2.cellSeq H p.tau (fun _ => QMDPLayer.transition p)
        (compute_value H (fun _ => QMDPLayer.transition p) reward) (bb, pp)
        ((o0 :: lo2).zip (u0 :: lu2)) with hdef
      have hsucc := QMDPLayer2.cellSeq2_getD_succ H p.tau
        (fun _ => QMDPLayer.transition p)
        (compute_value H (fun _ => QMDPLayer.transition p) reward)
        (fun _ _ => 0, fun _ _ => 0, fun _ _ => 0) (fun _ _ => 0, fun _ _ => 0)
        ((o0 :: lo2).zip (u0 :: lu2)) (bb, pp) t hzl
      rw [← hdef] at hsucc
      rw [zip_getD (o0 :: lo2) (u0 :: lu2) (t + 1) (fun _ _ => 0) (fun _ _ => 0)
        ht hlt2] at hsucc
      refine ⟨?_, ?_, ?_⟩
      · rw [getD_map_fn (fun y => y.1) out (t + 1)
            (fun _ _ => 0, fun _ _ => 0, fun _ _ => 0) (fun _ _ => 0) rfl,
          getD_map_fn (fun y => y.2.2) out t
            (fun _ _ => 0, fun _ _ => 0, fun _ _ => 0) (fun _ _ => 0) rfl,
          hsucc]
        rfl
      · rw [getD_map_fn (fun y => y.2.1) out (t + 1)
            (fun _ _ => 0, fun _ _ => 0, fun _ _ => 0) (fun _ _ => 0) rfl,
          getD_map_fn (fun y => y.1) out (t + 1)
            (fun _ _ => 0, fun _ _ => 0, fun _ _ => 0) (fun _ _ => 0) rfl,
          getD_map_fn (fun y => y.2.1) out t
            (fun _ _ => 0, fun _ _ => 0, fun _ _ => 0) (fun _ _ => 0) rfl,
          hsucc]
        rfl
      · rw [getD_map_fn (fun y => y.2.2) out (t + 1)
            (fun _ _ => 0, fun _ _ => 0, fun _ _ => 0) (fun _ _ => 0) rfl,
          getD_map_fn (fun y => y.2.1) out (t + 1)
            (fun _ _ => 0, fun _ _ => 0, fun _ _ => 0) (fun _ _ => 0) rfl,
          hsucc]
        rfl

/-- Witness for C4 at `T = 1` with zero tensors and supplied zero belief and
prior. -/
theorem layer2_step_structure_witness :
    ((wOut2.map (fun y => y.1)).getD 0 (fun _ _ => 0) =
        QMDPLayer2.update_action ([wMat].getD 0 (fun _ _ => 0)) wMat ∧
      (wOut2.map (fun y => y.2.1)).getD 0 (fun _ _ => 0) =
        update_belief ([wMat].getD 0 (fun _ _ => 0))
          ((wOut2.map (fun y => y.1)).getD 0 (fun _ _ => 0)) wMat
          (fun _ => QMDPLayer.transition wParams) ∧
      (wOut2.map (fun y => y.2.2)).getD 0 (fun _ _ => 0) =
        planQ 1 wParams.tau ((wOut2.map (fun y => y.2.1)).getD 0 (fun _ _ => 0))
          (compute_value 1 (fun _ => QMDPLayer.transition wParams) wRew)) ∧
    (∀ t, t + 1 < [wMat].length →
      (wOut2.map (fun y => y.1)).getD (t + 1) (fun _ _ => 0) =
        QMDPLayer2.update_action ([wMat].getD (t + 1) (fun _ _ => 0))
          ((wOut2.map (fun y => y.2.2)).getD t (fun _ _ => 0)) ∧
      (wOut2.map (fun y => y.2.1)).getD (t + 1) (fun _ _ => 0) =
        update_belief ([wMat].getD (t + 1) (fun _ _ => 0))
          ((wOut2.map (fun y => y.1)).getD (t + 1) (fun _ _ => 0))
          ((wOut2.map (fun y => y.2.1)).getD t (fun _ _ => 0))
          (fun _ => QMDPLayer.transition wParams) ∧
      (wOut2.map (fun y => y.2.2)).getD (t + 1) (fun _ _ => 0) =
        planQ 1 wParams.tau ((wOut2.map (fun y => y.2.1)).getD (t + 1) (fun _ _ => 0))
          (compute_value 1 (fun _ => QMDPLayer.transition wParams) wRew)) :=
  by
  have hout : QMDPLayer2.forward 1 1 wParams [wMat] [wMat] wRew (some wMat)
      (some wMat) =
      some (wOut2.map (fun y => y.1), wOut2.map (fun y => y.2.1),
        wOut2.map (fun y => y.2.2)) := rfl
  exact layer2_step_structure 1 1 wParams [wMat] [wMat] wRew wMat wMat
    (wOut2.map (fun y => y.1)) (wOut2.map (fun y => y.2.1))
    (wOut2.map (fun y => y.2.2)) rfl (by simp) hout

lemma HyperQMDPLayer.cellSeqH_cons {B S A R Z : ℕ} (H : ℕ) (hp : HyperQMDPParams S A R Z)
    (z : Fin B → Fin Z → ℝ) (tr : TransT B A S) (value : Fin H → RewT B A S)
    (s : BeliefT B S × ActT B A) (ou : BeliefT B S × ActT B A)
    (rest : List (BeliefT B S × ActT B A)) :
    HyperQMDPLayer.cellSeq H hp z tr value s (ou :: rest) =
      HyperQMDPLayer.cellStep H hp z tr value s ou ::
        HyperQMDPLayer.cellSeq H hp z tr value
          (HyperQMDPLayer.cellStep H hp z tr value s ou) rest := rfl

lemma HyperQMDPLayer.cellSeqH_getD_succ {B S A R Z : ℕ} (H : ℕ)
    (hp : HyperQMDPParams S A R Z) (z : Fin B → Fin Z → ℝ) (tr : TransT B A S)
    (value : Fin H → RewT B A S) (d dp : BeliefT B S × ActT B A)
    (l : List (BeliefT B S × ActT B A)) :
    ∀ (s : BeliefT B S × ActT B A) (t : ℕ), t + 1 < l.length →
      (HyperQMDPLayer.cellSeq H hp z tr value s l).getD (t + 1) d =
        HyperQMDPLayer.cellStep H hp z tr value
          ((HyperQMDPLayer.cellSeq H hp z tr value s l).getD t d)
          (l.getD (t + 1) dp) := by
  induction l with
  | nil => intro s t ht; exact absurd ht (by simp)
  | cons ou rest ih =>
    intro s t ht
    cases rest with
    | nil => exact absurd ht (by simp)
    | cons ou2 rest2 =>
      cases t with
      | zero =>
        rw [HyperQMDPLayer.cellSeqH_cons]
        simp only [getD_cons_succ_fn, getD_cons_zero_fn]
        rw [HyperQMDPLayer.cellSeqH_cons]
        simp only [getD_cons_zero_fn]
      | succ t2 =>
        have ht2 : t2 + 1 < (ou2 :: rest2).length := Nat.lt_of_succ_lt_succ ht
        rw [HyperQMDPLayer.cellSeqH_cons]
        simp only [getD_cons_succ_fn]
        exact ih _ t2 ht2

/-- Claim C9: with `b = none`, `HyperQMDPLayer.forward` emits as its first
belief the first observation folded into the hypernetwork prior,
`softmax(log(softmax(_b0(z)) + 1e-6) + logp_o[0])`; the first emitted action
distribution is `plan` of that belief and `z`; no control log-likelihood is
consumed at step 0; and every later step `t ≥ 1` consumes `logp_u[t-1]`. -/
theorem hyper_forward_init_spec {S A R Z : ℕ} (B H : ℕ) (hp : HyperQMDPParams S A R Z)
    (o0 : BeliefT B S) (rest : List (BeliefT B S)) (logp_u : List (ActT B A))
    (reward : RewT B A S) (z : Fin B → Fin Z → ℝ) (aopt : Option (ActT B A))
    (alpha_b : List (BeliefT B S)) (alpha_a : List (ActT B A))
    (hlen : logp_u.length = rest.length)
    (hout : HyperQMDPLayer.forward B H hp (o0 :: rest) logp_u reward z none aopt =
      some (alpha_b, alpha_a)) :
    alpha_b.getD 0 (fun _ _ => 0) = (fun n => softmaxFin (fun j =>
        Real.log (softmaxFin (fun i => (∑ m, hp.b0w i m * z n m) + hp.b0b i) j + 1e-6)
          + o0 n j)) ∧
    alpha_a.getD 0 (fun _ _ => 0) =
      HyperQMDPLayer.plan H hp z (alpha_b.getD 0 (fun _ _ => 0))
        (compute_value H (HyperQMDPLayer.compute_transition hp z) reward) ∧
    alpha_b.length = (o0 :: rest).length ∧
    alpha_a.length = (o0 :: rest).length ∧
    (∀ t, t + 1 < (o0 :: rest).length →
      alpha_b.getD (t + 1) (fun _ _ => 0) =
        update_belief (rest.getD t (fun _ _ => 0))
          (HyperQMDPLayer.update_action (logp_u.getD t (fun _ _ => 0))
            (alpha_a.getD t (fun _ _ => 0)))
          (alpha_b.getD t (fun _ _ => 0)) (HyperQMDPLayer.compute_transition hp z) ∧
      alpha_a.getD (t + 1) (fun _ _ => 0) =
        HyperQMDPLayer.plan H hp z (alpha_b.getD (t + 1) (fun _ _ => 0))
          (compute_value H (HyperQMDPLayer.compute_transition hp z) reward)) := by
  simp only [HyperQMDPLayer.forward, Option.some.injEq, Prod.mk.injEq] at hout
  obtain ⟨hb, ha⟩ := hout
  subst hb ha
  refine ⟨rfl, rfl, ?_, ?_, ?_⟩
  · simp only [List.length_cons, List.length_map, cellSeqH_length, List.length_zip,
      hlen, min_self]
  · simp only [List.length_cons, List.length_map, cellSeqH_length, List.length_zip,
      hlen, min_self]
  · intro t ht
    cases t with
    | zero =>
      cases rest with
      | nil => exact absurd ht (by simp)
      | cons r0 rest2 =>
        cases logp_u with
        | nil => exact absurd hlen (by simp)
        | cons uu0 lu2 => exact ⟨rfl, rfl⟩
    | succ t2 =>
      have ht2 : t2 + 1 < rest.length := by
        simp only [List.length_cons] at ht
        omega
      have hlt2 : t2 + 1 < logp_u.length := by rw [hlen]; exact ht2
      have hzl : t2 + 1 < (rest.zip logp_u).length := by
        rw [List.length_zip]; exact lt_min ht2 hlt2
      set out := HyperQMDPLayer.cellSeq H hp z (HyperQMDPLayer.compute_transition hp z)
        (compute_value H (HyperQMDPLayer.compute_transition hp z) reward)
        (HyperQMDPLayer.init_hidden H hp z o0
          (compute_value H (HyperQMDPLayer.compute_transition hp z) reward))
        (rest.zip logp_u) with hdef
      have hsucc := HyperQMDPLayer.cellSeqH_getD_succ H hp z
        (HyperQMDPLayer.compute_transition hp z)
        (compute_value H (HyperQMDPLayer.compute_transition hp z) reward)
        (fun _ _ => 0, fun _ _ => 0) (fun _ _ => 0, fun _ _ => 0)
        (rest.zip logp_u)
        (HyperQMDPLayer.init_hidden H hp z o0
          (compute_value H (HyperQMDPLayer.compute_transition hp z) reward))
        t2 hzl
      rw [← hdef] at hsucc
      rw [zip_getD rest logp_u (t2 + 1) (fun _ _ => 0) (fun _ _ => 0) ht2 hlt2] at hsucc
      constructor
      · simp only [getD_cons_succ_fn]
        rw [getD_map_fn (fun y => y.1) out (t2 + 1)
            (fun _ _ => 0, fun _ _ => 0) (fun _ _ => 0) rfl,
          getD_map_fn (fun y => y.2) out t2
            (fun _ _ => 0, fun _ _ => 0) (fun _ _ => 0) rfl,
          getD_map_fn (fun y => y.1) out t2
            (fun _ _ => 0, fun _ _ => 0) (fun _ _ => 0) rfl,
          hsucc]
        rfl
      · simp only [getD_cons_succ_fn]
        rw [getD_map_fn (fun y => y.2) out (t2 + 1)
            (fun _ _ => 0, fun _ _ => 0) (fun _ _ => 0) rfl,
          getD_map_fn (fun y => y.1) out (t2 + 1)
            (fun _ _ => 0, fun _ _ => 0) (fun _ _ => 0) rfl,
          hsucc]
        rfl

/-- Witness for C9 at `T = 2` (one observation after the initial step) with
zero tensors and no supplied prior. -/
theorem hyper_forward_init_spec_witness :
    ((HyperQMDPLayer.init_hidden 1 wHyper wMat wMat
        (compute_value 1 (HyperQMDPLayer.compute_transition wHyper wMat) wRew)).1 ::
      wOutH.map (fun y => y.1)).getD 0 (fun _ _ => 0) = (fun n => softmaxFin (fun j =>
        Real.log (softmaxFin
            (fun i => (∑ m, wHyper.b0w i m * wMat n m) + wHyper.b0b i) j + 1e-6)
          + wMat n j)) ∧
    ((HyperQMDPLayer.init_hidden 1 wHyper wMat wMat
        (compute_value 1 (HyperQMDPLayer.compute_transition wHyper wMat) wRew)).2 ::
      wOutH.map (fun y => y.2)).getD 0 (fun _ _ => 0) =
      HyperQMDPLayer.plan 1 wHyper wMat
        (((HyperQMDPLayer.init_hidden 1 wHyper wMat wMat
            (compute_value 1 (HyperQMDPLayer.compute_transition wHyper wMat) wRew)).1 ::
          wOutH.map (fun y => y.1)).getD 0 (fun _ _ => 0))
        (compute_value 1 (HyperQMDPLayer.compute_transition wHyper wMat) wRew) ∧
    ((HyperQMDPLayer.init_hidden 1 wHyper wMat wMat
        (compute_value 1 (HyperQMDPLayer.compute_transition wHyper wMat) wRew)).1 ::
      wOutH.map (fun y => y.1)).length = (wMat :: [wMat]).length ∧
    ((HyperQMDPLayer.init_hidden 1 wHyper wMat wMat
        (compute_value 1 (HyperQMDPLayer.compute_transition wHyper wMat) wRew)).2 ::
      wOutH.map (fun y => y.2)).length = (wMat :: [wMat]).length ∧
    (∀ t, t + 1 < (wMat :: [wMat]).length →
      ((HyperQMDPLayer.init_hidden 1 wHyper wMat wMat
          (compute_value 1 (HyperQMDPLayer.compute_transition wHyper wMat) wRew)).1 ::
        wOutH.map (fun y => y.1)).getD (t + 1) (fun _ _ => 0) =
        update_belief ([wMat].getD t (fun _ _ => 0))
          (HyperQMDPLayer.update_action ([wMat].getD t (fun _ _ => 0))
            (((HyperQMDPLayer.init_hidden 1 wHyper wMat wMat
                (compute_value 1 (HyperQMDPLayer.compute_transition wHyper wMat)
                  wRew)).2 ::
              wOutH.map (fun y => y.2)).getD t (fun _ _ => 0)))
          (((HyperQMDPLayer.init_hidden 1 wHyper wMat wMat
              (compute_value 1 (HyperQMDPLayer.compute_transition wHyper wMat)
                wRew)).1 ::
            wOutH.map (fun y => y.1)).getD t (fun _ _ => 0))
          (HyperQMDPLayer.compute_transition wHyper wMat) ∧
      ((HyperQMDPLayer.init_hidden 1 wHyper wMat wMat
          (compute_value 1 (HyperQMDPLayer.compute_transition wHyper wMat) wRew)).2 ::
        wOutH.map (fun y => y.2)).getD (t + 1) (fun _ _ => 0) =
        HyperQMDPLayer.plan 1 wHyper wMat
          (((HyperQMDPLayer.init_hidden 1 wHyper wMat wMat
              (compute_value 1 (HyperQMDPLayer.compute_transition wHyper wMat)
                wRew)).1 ::
            wOutH.map (fun y => y.1)).getD (t + 1) (fun _ _ => 0))
          (compute_value 1 (HyperQMDPLayer.compute_transition wHyper wMat) wRew)) := by
  have hout : HyperQMDPLayer.forward 1 1 wHyper (wMat :: [wMat]) [wMat] wRew wMat
      none none =
      some ((HyperQMDPLayer.init_hidden 1 wHyper wMat wMat
          (compute_value 1 (HyperQMDPLayer.compute_transition wHyper wMat) wRew)).1 ::
        wOutH.map (fun y => y.1),
        (HyperQMDPLayer.init_hidden 1 wHyper wMat wMat
          (compute_value 1 (HyperQMDPLayer.compute_transition wHyper wMat) wRew)).2 ::
        wOutH.map (fun y => y.2)) := rfl
  exact hyper_forward_init_spec 1 1 wHyper wMat [wMat] [wMat] wRew wMat none
    ((HyperQMDPLayer.init_hidden 1 wHyper wMat wMat
        (compute_value 1 (HyperQMDPLayer.compute_transition wHyper wMat) wRew)).1 ::
      wOutH.map (fun y => y.1))
    ((HyperQMDPLayer.init_hidden 1 wHyper wMat wMat
        (compute_value 1 (HyperQMDPLayer.compute_transition wHyper wMat) wRew)).2 ::
      wOutH.map (fun y => y.2)) rfl hout
